import Mathlib

set_option maxRecDepth 10000

/-- Answer values recorded for a single question, mirroring the `Answer` enum of
`tus_types.py` (CORRECT="D", WRONG="Y", EMPTY="B", MISSING=" "). -/
inductive Answer
| CORRECT
| WRONG
| EMPTY
| MISSING
deriving DecidableEq

/-- Error kinds surfaced by the embedded operations: `indexError` mirrors Python
`IndexError`, `runtimeError` the internal `RuntimeError` raised by the segment
scan of `_get_internal_coords`, and `assertionError` the construction-time
`assert` of `QuizCategory.__init__` (the spec's `ConfigurationInvalid`). -/
inductive Err
| indexError
| runtimeError
| assertionError
deriving DecidableEq

/-- Python list read `l[i]`: non-negative indices address from the front,
negative indices address from the back, anything else raises `IndexError`. -/
def pyListGet {α : Type} (l : List α) (i : Int) : Except Err α :=
  let j : Int := if i < 0 then i + l.length else i
  if h : 0 ≤ j ∧ j < (l.length : Int) then
    .ok (l.get ⟨j.toNat, by omega⟩)
  else
    .error .indexError

/-- Python list write `l[i] = v`, with the same index normalisation as reads. -/
def pyListSet {α : Type} (l : List α) (i : Int) (v : α) : Except Err (List α) :=
  let j : Int := if i < 0 then i + l.length else i
  if 0 ≤ j ∧ j < (l.length : Int) then
    .ok (l.set j.toNat v)
  else
    .error .indexError

/-- A named, fixed-length sequence of answer slots (`Subject` in `tus_types.py`).
The `answers` list is the mutable payload; its length never changes. -/
structure Subject where
  name : String
  answers : List Answer
deriving DecidableEq

/-- Constructor `Subject(name, question_count)`: all slots start MISSING. -/
def Subject.new (name : String) (question_count : Nat) : Subject :=
  ⟨name, List.replicate question_count Answer.MISSING⟩

def Subject.question_count (s : Subject) : Nat := s.answers.length

def Subject.num_correct (s : Subject) : Nat := s.answers.count Answer.CORRECT

def Subject.num_wrong (s : Subject) : Nat := s.answers.count Answer.WRONG

def Subject.num_empty (s : Subject) : Nat := s.answers.count Answer.EMPTY

/-- Net score `num_correct - num_wrong / 4`. The Python code computes this with
float division; every value reachable here is a small dyadic rational (a multiple
of 1/4), represented exactly by the float, so ℚ is a faithful model. -/
def Subject.num_net (s : Subject) : ℚ :=
  (s.num_correct : ℚ) - (s.num_wrong : ℚ) / 4

/-- Subject `__getitem__`: plain Python list indexing. -/
def Subject.getItem (s : Subject) (i : Int) : Except Err Answer :=
  pyListGet s.answers i

/-- Subject `__setitem__`: plain Python list assignment. -/
def Subject.setItem (s : Subject) (i : Int) (v : Answer) : Except Err Subject :=
  match pyListSet s.answers i v with
  | .ok l => .ok ⟨s.name, l⟩
  | .error e => .error e

/-- The module-level `theoretical_blueprints` list. -/
def theoretical_blueprints : List Subject :=
  [Subject.new "Anatomi" 13, Subject.new "Fizyoloji" 15, Subject.new "Biyokimya" 18,
   Subject.new "Mikrobiyoloji" 18, Subject.new "Patoloji" 18, Subject.new "Farmakoloji" 18]

/-- The module-level `clinical_blueprints` list. -/
def clinical_blueprints : List Subject :=
  [Subject.new "Dahiliye" 25, Subject.new "Dahili KS" 10, Subject.new "Pediatri" 25,
   Subject.new "Genel Cerrahi" 21, Subject.new "Cerrahi KS" 9, Subject.new "Kadın Doğum" 10]

/-- Insertion-ordered association list modelling a Python `dict[str, Subject]`. -/
abbrev SubjectDict := List (String × Subject)

/-- One assignment `d[k] = v` on a Python dict: an existing key keeps its
position and gets the new value, a fresh key is appended. -/
def insertDict (d : SubjectDict) (k : String) (v : Subject) : SubjectDict :=
  if d.any (fun p => p.1 == k) then d.map (fun p => if p.1 = k then (k, v) else p)
  else d ++ [(k, v)]

/-- The dict comprehension `{subject.name: deepcopy(subject) for subject in bs}`
of `QuizCategory.__init__`. Deep copies are identities in this functional model. -/
def buildDict (bs : List Subject) : SubjectDict :=
  bs.foldl (fun d s => insertDict d s.name s) []

/-- Propositional form of dict-key uniqueness: the keys of the association list
are pairwise distinct. This holds for every list produced by `buildDict`
(Python dicts cannot hold duplicate keys). -/
def keysND (d : SubjectDict) : Prop := (d.map Prod.fst).Nodup

instance keysND_decidable (d : SubjectDict) : Decidable (keysND d) := by
  unfold keysND; infer_instance

/-- State of the class `SubjectArrayMutableConcatenatedView`: the ordered
name→Subject mapping the view aliases, plus the fill cursor `_index_to_update`.
The segment table `_segment_info` and `_total_length` are recomputed from `data`
on demand; this is faithful because the view's own operations never change the
number of segments nor any subject's length. -/
structure SAView where
  data : SubjectDict
  index_to_update : Int
deriving DecidableEq

/-- Source-code name for the view type. -/
abbrev SubjectArrayMutableConcatenatedView := SAView

/-- Sum of segment lengths of an association list of subjects. -/
def sumLen (d : SubjectDict) : Nat := (d.map (fun p => p.2.answers.length)).sum

/-- Concatenation of all answer slots in segment order. -/
def flattenD (d : SubjectDict) : List Answer := (d.map (fun p => p.2.answers)).flatten

def SAView.total_length (v : SAView) : Nat := sumLen v.data

/-- The `_segment_info` table: `(key, absolute_start, absolute_end, subject)`
built with a running offset, exactly as in the constructor loop. -/
def segInfoAux : SubjectDict → Nat → List (String × Nat × Nat × Subject)
| [], _ => []
| (k, s) :: rest, off =>
  (k, off, off + s.answers.length, s) :: segInfoAux rest (off + s.answers.length)

def segInfo (d : SubjectDict) : List (String × Nat × Nat × Subject) := segInfoAux d 0

/-- The linear scan of `_get_internal_coords`: first segment with
`start <= absolute_index < end` wins; `none` models falling off the loop into
the trailing `RuntimeError`. -/
def scanSegs : List (String × Nat × Nat × Subject) → Int → Option (String × Nat × Subject)
| [], _ => none
| (k, s, e, sub) :: rest, i =>
  if (s : Int) ≤ i ∧ i < (e : Int) then some (k, (i - (s : Int)).toNat, sub)
  else scanSegs rest i

/-- Method `_get_internal_coords`: bounds check, then the linear segment scan. -/
def SAView.get_internal_coords (v : SAView) (i : Int) :
    Except Err (String × Nat × Subject) :=
  if 0 ≤ i ∧ i < (v.total_length : Int) then
    match scanSegs (segInfo v.data) i with
    | some r => .ok r
    | none => .error .runtimeError
  else .error .indexError

/-- View `__getitem__`: translate, then read the subject at the internal index. -/
def SAView.getItem (v : SAView) (i : Int) : Except Err Answer :=
  match v.get_internal_coords i with
  | .ok (_, j, sub) => sub.getItem (j : Int)
  | .error e => .error e

/-- Replacement of the dict entry under key `k` by the mutated subject; this is
the functional rendering of mutating the Subject object aliased by both the
dict and the segment table. -/
def updKey (k : String) (ns : Subject) (p : String × Subject) : String × Subject :=
  if p.1 = k then (k, ns) else p

/-- View `__setitem__`: translate, then write the subject at the internal index. -/
def SAView.setItem (v : SAView) (i : Int) (a : Answer) : Except Err SAView :=
  match v.get_internal_coords i with
  | .ok (k, j, sub) =>
    match sub.setItem (j : Int) a with
    | .ok ns => .ok ⟨v.data.map (updKey k ns), v.index_to_update⟩
    | .error e => .error e
  | .error e => .error e

/-- Method `get_relative_position`: same translation, but `IndexError` is caught and
becomes `none`; the internal `RuntimeError` would still propagate. -/
def SAView.get_relative_position (v : SAView) (i : Int) :
    Except Err (Option (String × Nat)) :=
  match v.get_internal_coords i with
  | .ok (k, j, _) => .ok (some (k, j))
  | .error .indexError => .ok none
  | .error e => .error e

/-- Method `update_next`: guard against an exhausted cursor, write at the cursor,
advance it, and report whether the cursor now equals `len(self)` (which is the
total length of the mutated data). -/
def SAView.update_next (v : SAView) (a : Answer) : Except Err (Bool × SAView) :=
  if (v.total_length : Int) ≤ v.index_to_update then .error .indexError
  else
    match v.setItem v.index_to_update a with
    | .error e => .error e
    | .ok v1 =>
      .ok (decide (v1.index_to_update + 1 = (sumLen v1.data : Int)),
        ⟨v1.data, v1.index_to_update + 1⟩)

/-- Method `erase_last`: guard against a negative cursor, no-op at cursor 0, otherwise
step the cursor back and reset that slot to MISSING. -/
def SAView.erase_last (v : SAView) : Except Err (Bool × SAView) :=
  if v.index_to_update < 0 then .error .indexError
  else if v.index_to_update = 0 then .ok (false, v)
  else
    match SAView.setItem ⟨v.data, v.index_to_update - 1⟩ (v.index_to_update - 1)
        Answer.MISSING with
    | .error e => .error e
    | .ok v2 => .ok (true, v2)

def NUM_QUESTIONS_PER_CATEGORY : Nat := 100

/-- A quiz category: its display name and the segmented view over its owned
subject dict (`_subjects_dict` and `_array_view` share the subjects, so a single
`data` field represents both). -/
structure QuizCategory where
  name : String
  view : SAView
deriving DecidableEq

def QuizCategory.map_view (c : QuizCategory) : SubjectDict := c.view.data

/-- Constructor `QuizCategory.__init__`: build the dict from the blueprints (deep-copying
each), build the view, and assert that the view has exactly
`NUM_QUESTIONS_PER_CATEGORY` slots. -/
def QuizCategory.mkChecked (name : String) (subject_blueprints : List Subject) :
    Except Err QuizCategory :=
  let d := buildDict subject_blueprints
  let view : SAView := ⟨d, 0⟩
  if view.total_length = NUM_QUESTIONS_PER_CATEGORY then .ok ⟨name, view⟩
  else .error .assertionError

def QuizCategory.num_correct (c : QuizCategory) : Nat :=
  (c.map_view.map (fun p => p.2.num_correct)).sum

def QuizCategory.num_wrong (c : QuizCategory) : Nat :=
  (c.map_view.map (fun p => p.2.num_wrong)).sum

def QuizCategory.num_empty (c : QuizCategory) : Nat :=
  (c.map_view.map (fun p => p.2.num_empty)).sum

/-- Category net score: sum of the member subjects' net scores, in dict order. -/
def QuizCategory.num_net (c : QuizCategory) : ℚ :=
  (c.map_view.map (fun p => p.2.num_net)).sum

/-- Which category `Quiz._current` points at. The Python comparison
`self._current != self.clinical` is object identity, and `_current` is always
one of the two owned category objects, so a two-valued tag is faithful. -/
inductive ActiveCat
| theoretical
| clinical
deriving DecidableEq

structure Quiz where
  theoretical : QuizCategory
  clinical : QuizCategory
  current : ActiveCat
deriving DecidableEq

/-- Constructor `Quiz.__init__` for given blueprint lists: construct the theoretical
category, then the clinical one; a failed category assertion aborts the whole
construction. `_current` starts at theoretical. -/
def Quiz.mkChecked (tb cb : List Subject) : Except Err Quiz :=
  match QuizCategory.mkChecked "Temel" tb with
  | .error e => .error e
  | .ok t =>
    match QuizCategory.mkChecked "Klinik" cb with
    | .error e => .error e
    | .ok c => .ok ⟨t, c, ActiveCat.theoretical⟩

/-- The default-configured quiz `Quiz()`. -/
def defaultQuiz : Except Err Quiz :=
  Quiz.mkChecked theoretical_blueprints clinical_blueprints

/-- Method `Quiz.update`: delegate to the active view's `update_next`; on a filled
theoretical view switch to clinical and still report `false`; report `true`
only when the clinical view itself reports full. -/
def Quiz.update (q : Quiz) (a : Answer) : Except Err (Bool × Quiz) :=
  match q.current with
  | .theoretical =>
    match q.theoretical.view.update_next a with
    | .error e => .error e
    | .ok (full, v1) =>
      let q1 : Quiz := ⟨⟨q.theoretical.name, v1⟩, q.clinical, q.current⟩
      if full then .ok (false, ⟨q1.theoretical, q1.clinical, ActiveCat.clinical⟩)
      else .ok (false, q1)
  | .clinical =>
    match q.clinical.view.update_next a with
    | .error e => .error e
    | .ok (full, v1) =>
      .ok (full, ⟨q.theoretical, ⟨q.clinical.name, v1⟩, q.current⟩)

/-- Method `Quiz.erase`: delegate to the active view's `erase_last`. -/
def Quiz.erase (q : Quiz) : Except Err (Bool × Quiz) :=
  match q.current with
  | .theoretical =>
    match q.theoretical.view.erase_last with
    | .error e => .error e
    | .ok (b, v1) => .ok (b, ⟨⟨q.theoretical.name, v1⟩, q.clinical, q.current⟩)
  | .clinical =>
    match q.clinical.view.erase_last with
    | .error e => .error e
    | .ok (b, v1) => .ok (b, ⟨q.theoretical, ⟨q.clinical.name, v1⟩, q.current⟩)

/-- A whole run of sequential `Quiz.update` calls, collecting the returned
completion flags; the first raised exception aborts the run. -/
def runUpdates (q : Quiz) : List Answer → Except Err (List Bool × Quiz)
| [] => .ok ([], q)
| a :: rest =>
  match q.update a with
  | .error e => .error e
  | .ok (b, q1) =>
    match runUpdates q1 rest with
    | .error e => .error e
    | .ok (bs, q2) => .ok (b :: bs, q2)

/-- One externally driven quiz operation. -/
inductive QuizOp
| upd (a : Answer)
| erase
deriving DecidableEq

def Quiz.applyOp (q : Quiz) : QuizOp → Except Err (Bool × Quiz)
| .upd a => q.update a
| .erase => q.erase

/-- A run of arbitrary interleaved update/erase operations on a quiz. -/
def runQuizOps (q : Quiz) : List QuizOp → Except Err Quiz
| [] => .ok q
| op :: rest =>
  match q.applyOp op with
  | .error e => .error e
  | .ok (_, q1) => runQuizOps q1 rest

/-- One externally driven view operation. -/
inductive SegOp
| upd (a : Answer)
| erase
deriving DecidableEq

def SAView.applyOp (v : SAView) : SegOp → Except Err (Bool × SAView)
| .upd a => v.update_next a
| .erase => v.erase_last

/-- A run of arbitrary interleaved operations on a segmented view. -/
def runSegOps (v : SAView) : List SegOp → Except Err SAView
| [] => .ok v
| op :: rest =>
  match v.applyOp op with
  | .error e => .error e
  | .ok (_, v1) => runSegOps v1 rest

lemma sumLen_nil : sumLen [] = 0 := rfl

lemma sumLen_cons (k : String) (s : Subject) (d : SubjectDict) :
    sumLen ((k, s) :: d) = s.answers.length + sumLen d := by
  simp [sumLen]

lemma sumLen_append (d₁ d₂ : SubjectDict) :
    sumLen (d₁ ++ d₂) = sumLen d₁ + sumLen d₂ := by
  simp [sumLen]

lemma flattenD_nil : flattenD [] = [] := rfl

lemma flattenD_cons (k : String) (s : Subject) (d : SubjectDict) :
    flattenD ((k, s) :: d) = s.answers ++ flattenD d := by
  simp [flattenD]

lemma flattenD_append (d₁ d₂ : SubjectDict) :
    flattenD (d₁ ++ d₂) = flattenD d₁ ++ flattenD d₂ := by
  simp [flattenD]

lemma flattenD_length (d : SubjectDict) : (flattenD d).length = sumLen d := by
  simp [flattenD, sumLen, List.length_flatten, Function.comp_def]

/-- The segment scan always succeeds on an in-range index and identifies the
unique segment containing it, together with the internal offset. -/
lemma scanSegs_split (d : SubjectDict) (off : Nat) (i : Int)
    (h0 : (off : Int) ≤ i) (h1 : i < (off : Int) + (sumLen d : Int)) :
    ∃ pre k sub post,
      d = pre ++ (k, sub) :: post ∧
      ((off : Int) + (sumLen pre : Int)) ≤ i ∧
      i < (off : Int) + (sumLen pre : Int) + (sub.answers.length : Int) ∧
      scanSegs (segInfoAux d off) i =
        some (k, (i - (off : Int) - (sumLen pre : Int)).toNat, sub) := by
  induction d generalizing off with
  | nil => rw [sumLen_nil] at h1; omega
  | cons p rest ih =>
    obtain ⟨k0, s0⟩ := p
    rw [sumLen_cons] at h1
    by_cases hc : i < (off : Int) + (s0.answers.length : Int)
    · refine ⟨[], k0, s0, rest, by simp, by simpa [sumLen_nil] using h0,
        by simpa [sumLen_nil] using hc, ?_⟩
      simp only [segInfoAux, scanSegs]
      rw [if_pos]
      · simp [sumLen_nil]
      · constructor
        · exact_mod_cast h0
        · push_cast; omega
    · have h1' : i < ((off + s0.answers.length : Nat) : Int) + (sumLen rest : Int) := by
        push_cast; push_cast at h1; omega
      have h0' : ((off + s0.answers.length : Nat) : Int) ≤ i := by push_cast; omega
      obtain ⟨pre, k, sub, post, hd, hlo, hhi, hscan⟩ := ih (off + s0.answers.length) h0' h1'
      refine ⟨(k0, s0) :: pre, k, sub, post, by simp [hd], ?_, ?_, ?_⟩
      · rw [sumLen_cons]; push_cast; push_cast at hlo; omega
      · rw [sumLen_cons]; push_cast; push_cast at hhi; omega
      · simp only [segInfoAux, scanSegs]
        rw [if_neg]
        · rw [hscan]
          have harg : (i - ((off + s0.answers.length : Nat) : Int) - (sumLen pre : Int)).toNat
              = (i - (off : Int) - (sumLen ((k0, s0) :: pre) : Int)).toNat := by
            rw [sumLen_cons]; push_cast; omega
          rw [harg]
        · push_cast; omega

lemma coords_split (v : SAView) (i : Int) (h0 : 0 ≤ i)
    (h1 : i < (v.total_length : Int)) :
    ∃ pre k sub post,
      v.data = pre ++ (k, sub) :: post ∧
      (sumLen pre : Int) ≤ i ∧
      i < (sumLen pre : Int) + (sub.answers.length : Int) ∧
      v.get_internal_coords i = .ok (k, (i - (sumLen pre : Int)).toNat, sub) := by
  obtain ⟨pre, k, sub, post, hd, hlo, hhi, hscan⟩ :=
    scanSegs_split v.data 0 i (by omega) (by simpa using h1)
  refine ⟨pre, k, sub, post, hd, by simpa using hlo, by simpa using hhi, ?_⟩
  rw [SAView.get_internal_coords, if_pos ⟨h0, h1⟩, segInfo, hscan]
  norm_num

lemma coords_out (v : SAView) (i : Int) (h : ¬(0 ≤ i ∧ i < (v.total_length : Int))) :
    v.get_internal_coords i = .error .indexError := by
  rw [SAView.get_internal_coords, if_neg h]

lemma pyListGet_ofNat {α : Type} (l : List α) (j : Nat) (h : j < l.length) :
    pyListGet l (j : Int) = .ok (l.get ⟨j, h⟩) := by
  rw [pyListGet]
  have hneg : ¬((j : Int) < 0) := by omega
  simp only [hneg, if_false]
  rw [dif_pos (by constructor <;> omega)]
  simp

lemma pyListSet_ofNat {α : Type} (l : List α) (j : Nat) (v : α) (h : j < l.length) :
    pyListSet l (j : Int) v = .ok (l.set j v) := by
  rw [pyListSet]
  have hneg : ¬((j : Int) < 0) := by omega
  simp only [hneg, if_false]
  rw [if_pos (by constructor <;> omega)]
  simp

/-- Reading an in-range absolute index succeeds and agrees with the flattened
answer sequence. -/
lemma getItem_spec (v : SAView) (i : Int) (h0 : 0 ≤ i)
    (h1 : i < (v.total_length : Int)) :
    ∃ a, v.getItem i = .ok a ∧ (flattenD v.data)[i.toNat]? = some a := by
  obtain ⟨pre, k, sub, post, hd, hlo, hhi, hc⟩ := coords_split v i h0 h1
  set j : Nat := (i - (sumLen pre : Int)).toNat with hj
  have hjlt : j < sub.answers.length := by omega
  refine ⟨sub.answers.get ⟨j, hjlt⟩, ?_, ?_⟩
  · have hsub : sub.getItem (j : Int) = .ok (sub.answers.get ⟨j, hjlt⟩) := by
      simp only [Subject.getItem]
      exact pyListGet_ofNat sub.answers j hjlt
    simp only [SAView.getItem, hc, hsub]
  · rw [hd, flattenD_append, flattenD_cons]
    have hpre : (flattenD pre).length = sumLen pre := flattenD_length pre
    rw [List.getElem?_append_right (by omega)]
    rw [hpre]
    have hidx : i.toNat - sumLen pre = j := by omega
    rw [hidx, List.getElem?_append_left hjlt]
    simp

lemma getItem_out (v : SAView) (i : Int)
    (h : ¬(0 ≤ i ∧ i < (v.total_length : Int))) :
    v.getItem i = .error .indexError := by
  rw [SAView.getItem, coords_out v i h]

lemma setItem_out (v : SAView) (i : Int) (a : Answer)
    (h : ¬(0 ≤ i ∧ i < (v.total_length : Int))) :
    v.setItem i a = .error .indexError := by
  rw [SAView.setItem, coords_out v i h]

lemma map_updKey_of_ne (d : SubjectDict) (k : String) (ns : Subject)
    (h : ∀ p ∈ d, p.1 ≠ k) : d.map (updKey k ns) = d := by
  induction d with
  | nil => rfl
  | cons p rest ih =>
    simp only [List.map_cons]
    rw [updKey, if_neg (h p (by simp)), ih (fun q hq => h q (by simp [hq]))]

/-- With pairwise-distinct keys, splitting off the segment under key `k` shows
that the key-update rewrites exactly that one entry. -/
lemma map_updKey_split (pre post : SubjectDict) (k : String) (sub ns : Subject)
    (hnd : keysND (pre ++ (k, sub) :: post)) :
    (pre ++ (k, sub) :: post).map (updKey k ns) = pre ++ (k, ns) :: post := by
  rw [keysND, List.map_append] at hnd
  rw [List.nodup_append] at hnd
  obtain ⟨hnd1, hnd2, hdisj⟩ := hnd
  have hkpre : ∀ p ∈ pre, p.1 ≠ k := by
    intro p hp heq
    exact hdisj (List.mem_map_of_mem Prod.fst hp) (by simp [heq])
  have hkpost : ∀ p ∈ post, p.1 ≠ k := by
    simp only [List.map_cons, List.nodup_cons] at hnd2
    intro p hp heq
    exact hnd2.1 (heq ▸ List.mem_map_of_mem Prod.fst hp)
  rw [List.map_append, List.map_cons, map_updKey_of_ne pre k ns hkpre,
    map_updKey_of_ne post k ns hkpost, updKey, if_pos rfl]

/-- The per-segment structure (key, subject name, subject length) of a dict. -/
def segShape (d : SubjectDict) : List (String × String × Nat) :=
  d.map (fun p => (p.1, p.2.name, p.2.answers.length))

lemma segShape_sumLen {d₁ d₂ : SubjectDict} (h : segShape d₁ = segShape d₂) :
    sumLen d₁ = sumLen d₂ := by
  have h1 : ∀ d : SubjectDict, sumLen d = ((segShape d).map (fun t => t.2.2)).sum := by
    intro d
    simp [sumLen, segShape, List.map_map, Function.comp_def]
  rw [h1, h1, h]

lemma segShape_keys {d₁ d₂ : SubjectDict} (h : segShape d₁ = segShape d₂) :
    d₁.map Prod.fst = d₂.map Prod.fst := by
  have h1 : ∀ d : SubjectDict, d.map Prod.fst = (segShape d).map (fun t => t.1) := by
    intro d
    simp [segShape, List.map_map, Function.comp_def]
  rw [h1, h1, h]

lemma segShape_keysND {d₁ d₂ : SubjectDict} (h : segShape d₁ = segShape d₂)
    (hnd : keysND d₁) : keysND d₂ := by
  rw [keysND, ← segShape_keys h]
  exact hnd

/-- Writing an in-range absolute index succeeds, keeps the cursor and segment
structure, and rewrites exactly one slot of the flattened answer sequence. -/
lemma setItem_spec (v : SAView) (i : Int) (a : Answer) (hnd : keysND v.data)
    (h0 : 0 ≤ i) (h1 : i < (v.total_length : Int)) :
    ∃ v', v.setItem i a = .ok v' ∧ v'.index_to_update = v.index_to_update ∧
      segShape v'.data = segShape v.data ∧
      flattenD v'.data = (flattenD v.data).set i.toNat a := by
  obtain ⟨pre, k, sub, post, hd, hlo, hhi, hc⟩ := coords_split v i h0 h1
  set j : Nat := (i - (sumLen pre : Int)).toNat with hj
  have hjlt : j < sub.answers.length := by omega
  set ns : Subject := ⟨sub.name, sub.answers.set j a⟩ with hns
  refine ⟨⟨v.data.map (updKey k ns), v.index_to_update⟩, ?_, rfl, ?_, ?_⟩
  · have hsub : sub.setItem (j : Int) a = .ok ns := by
      simp only [Subject.setItem, pyListSet_ofNat sub.answers j a hjlt]
    simp only [SAView.setItem, hc, hsub]
  · rw [hd, map_updKey_split pre post k sub ns (hd ▸ hnd)]
    simp [segShape, hns]
  · rw [hd, map_updKey_split pre post k sub ns (hd ▸ hnd)]
    rw [flattenD_append, flattenD_cons, flattenD_append, flattenD_cons]
    have hpre : (flattenD pre).length = sumLen pre := flattenD_length pre
    have hidx : i.toNat = (flattenD pre).length + j := by omega
    rw [hidx, List.set_append_right _ _ (by omega), Nat.add_sub_cancel_left,
      List.set_append_left _ _ hjlt, hns]

lemma setItem_cursor (v : SAView) (i : Int) (a : Answer) (v' : SAView)
    (h : v.setItem i a = .ok v') : v'.index_to_update = v.index_to_update := by
  rw [SAView.setItem] at h
  split at h
  · split at h
    · simp only [Except.ok.injEq] at h
      rw [← h]
    · simp at h
  · simp at h

lemma setItem_ok_bounds (v : SAView) (i : Int) (a : Answer) (v' : SAView)
    (h : v.setItem i a = .ok v') : 0 ≤ i ∧ i < (v.total_length : Int) := by
  by_contra hcon
  rw [setItem_out v i a hcon] at h
  simp at h

/-- Inversion for a successful `update_next`: bounds on the prior cursor, the
cursor increment, preservation of the segment structure, and the meaning of the
returned completion flag. -/
lemma update_next_ok_inv (v : SAView) (a : Answer) (b : Bool) (v' : SAView)
    (hnd : keysND v.data) (h : v.update_next a = .ok (b, v')) :
    0 ≤ v.index_to_update ∧ v.index_to_update < (v.total_length : Int) ∧
    v'.index_to_update = v.index_to_update + 1 ∧
    segShape v'.data = segShape v.data ∧
    flattenD v'.data = (flattenD v.data).set v.index_to_update.toNat a ∧
    b = decide (v.index_to_update + 1 = (v.total_length : Int)) := by
  rw [SAView.update_next] at h
  by_cases hg : (v.total_length : Int) ≤ v.index_to_update
  · rw [if_pos hg] at h; simp at h
  · rw [if_neg hg] at h
    split at h
    · simp at h
    · next v1 heq =>
      have hb := setItem_ok_bounds v v.index_to_update a v1 heq
      obtain ⟨v2, hset2, hcur2, hshape2, hflat2⟩ :=
        setItem_spec v v.index_to_update a hnd hb.1 hb.2
      have hv12 : v1 = v2 := Except.ok.inj (heq.symm.trans hset2)
      subst hv12
      simp only [Except.ok.injEq, Prod.mk.injEq] at h
      obtain ⟨hbeq, hveq⟩ := h
      subst hveq
      refine ⟨hb.1, hb.2, by simp [hcur2], hshape2, hflat2, ?_⟩
      rw [← hbeq]
      have htot : sumLen v1.data = sumLen v.data := segShape_sumLen hshape2
      simp only [SAView.total_length, htot, hcur2]

lemma update_next_exhausted (v : SAView) (a : Answer)
    (h : (v.total_length : Int) ≤ v.index_to_update) :
    v.update_next a = .error .indexError := by
  rw [SAView.update_next, if_pos h]

/-- Inversion for a successful `erase_last`: either the cursor was 0 and nothing
changed, or the cursor stepped back one slot which was reset to MISSING. -/
lemma erase_last_ok_inv (v : SAView) (b : Bool) (v' : SAView)
    (hnd : keysND v.data) (h : v.erase_last = .ok (b, v')) :
    (v.index_to_update = 0 ∧ v' = v ∧ b = false) ∨
    (0 < v.index_to_update ∧ v.index_to_update ≤ (v.total_length : Int) ∧
      b = true ∧ v'.index_to_update = v.index_to_update - 1 ∧
      segShape v'.data = segShape v.data ∧
      flattenD v'.data = (flattenD v.data).set (v.index_to_update - 1).toNat
        Answer.MISSING) := by
  rw [SAView.erase_last] at h
  by_cases hneg : v.index_to_update < 0
  · rw [if_pos hneg] at h; simp at h
  · rw [if_neg hneg] at h
    by_cases hz : v.index_to_update = 0
    · rw [if_pos hz] at h
      simp only [Except.ok.injEq, Prod.mk.injEq] at h
      exact Or.inl ⟨hz, h.2.symm, h.1.symm⟩
    · rw [if_neg hz] at h
      right
      split at h
      · simp at h
      · next v2 heq =>
        simp only [Except.ok.injEq, Prod.mk.injEq] at h
        obtain ⟨hbeq, hveq⟩ := h
        have hb := setItem_ok_bounds _ _ _ _ heq
        have hb1 : 0 ≤ v.index_to_update - 1 := hb.1
        have hb2 : v.index_to_update - 1 <
            ((⟨v.data, v.index_to_update - 1⟩ : SAView).total_length : Int) := hb.2
        obtain ⟨v3, hset3, hcur3, hshape3, hflat3⟩ :=
          setItem_spec ⟨v.data, v.index_to_update - 1⟩ (v.index_to_update - 1)
            Answer.MISSING hnd hb1 hb2
        have hv23 : v2 = v3 := Except.ok.inj (heq.symm.trans hset3)
        subst hv23
        subst hveq
        refine ⟨by omega, ?_, hbeq.symm, by simpa using hcur3, hshape3, hflat3⟩
        have hb2' : v.index_to_update - 1 < (sumLen v.data : Int) := by
          simpa [SAView.total_length] using hb2
        simp only [SAView.total_length]
        omega

lemma keysND_split_not_mem (pre post : SubjectDict) (k : String) (sub : Subject)
    (hnd : keysND (pre ++ (k, sub) :: post)) :
    (∀ p ∈ pre, p.1 ≠ k) ∧ (∀ p ∈ post, p.1 ≠ k) := by
  rw [keysND, List.map_append, List.nodup_append] at hnd
  obtain ⟨hnd1, hnd2, hdisj⟩ := hnd
  constructor
  · intro p hp heq
    exact hdisj (List.mem_map_of_mem Prod.fst hp) (by simp [heq])
  · simp only [List.map_cons, List.nodup_cons] at hnd2
    intro p hp heq
    exact hnd2.1 (heq ▸ List.mem_map_of_mem Prod.fst hp)

/-- Dict lookup `d[k]` as used implicitly through the shared Subject object. -/
def lookupD (d : SubjectDict) (k : String) : Option Subject :=
  (d.find? (fun p => p.1 == k)).map Prod.snd

lemma lookupD_split (pre post : SubjectDict) (k : String) (sub : Subject)
    (hnd : keysND (pre ++ (k, sub) :: post)) :
    lookupD (pre ++ (k, sub) :: post) k = some sub := by
  obtain ⟨hpre, _⟩ := keysND_split_not_mem pre post k sub hnd
  rw [lookupD, List.find?_append]
  have hnone : pre.find? (fun p => p.1 == k) = none := by
    rw [List.find?_eq_none]
    intro p hp
    simpa using hpre p hp
  rw [hnone]
  simp

lemma insertDict_keysND (d : SubjectDict) (k : String) (v : Subject)
    (hnd : keysND d) : keysND (insertDict d k v) := by
  rw [insertDict]
  by_cases hmem : d.any (fun p => p.1 == k)
  · rw [if_pos hmem]
    have hkeys : (d.map (fun p => if p.1 = k then (k, v) else p)).map Prod.fst
        = d.map Prod.fst := by
      rw [List.map_map]
      apply List.map_congr_left
      intro p _
      by_cases hpk : p.1 = k
      · simp [hpk]
      · simp [hpk]
    rw [keysND, hkeys]
    exact hnd
  · rw [if_neg hmem]
    rw [keysND, List.map_append, List.nodup_append]
    refine ⟨hnd, by simp, ?_⟩
    intro x hx hx2
    simp only [List.map_cons, List.map_nil, List.mem_singleton] at hx2
    subst hx2
    obtain ⟨p, hp, hpf⟩ := List.mem_map.mp hx
    simp only [List.any_eq_true, not_exists, not_and, beq_iff_eq] at hmem
    exact hmem p hp hpf

/-- Every dict built by the comprehension has pairwise-distinct keys. -/
lemma buildDict_keysND (bs : List Subject) : keysND (buildDict bs) := by
  rw [buildDict]
  have hgen : ∀ (cs : List Subject) (acc : SubjectDict), keysND acc →
      keysND (cs.foldl (fun d s => insertDict d s.name s) acc) := by
    intro cs
    induction cs with
    | nil => intro acc h; exact h
    | cons s rest ih =>
      intro acc h
      simp only [List.foldl_cons]
      exact ih (insertDict acc s.name s) (insertDict_keysND acc s.name s h)
  exact hgen bs [] (by simp [keysND])

lemma foldl_insertDict_fresh (bs : List Subject) : ∀ acc : SubjectDict,
    (∀ s ∈ bs, ∀ p ∈ acc, p.1 ≠ s.name) → (bs.map Subject.name).Nodup →
    bs.foldl (fun d s => insertDict d s.name s) acc
      = acc ++ bs.map (fun s => (s.name, s)) := by
  induction bs with
  | nil => intro acc _ _; simp
  | cons s rest ih =>
    intro acc hfresh hnd2
    simp only [List.map_cons, List.nodup_cons] at hnd2
    simp only [List.foldl_cons]
    have hins : insertDict acc s.name s = acc ++ [(s.name, s)] := by
      rw [insertDict, if_neg]
      simp only [List.any_eq_true, not_exists, not_and]
      intro p hp
      simpa using hfresh s (by simp) p hp
    rw [hins, ih]
    · simp
    · intro t ht p hp
      rcases List.mem_append.mp hp with hpa | hpb
      · exact hfresh t (by simp [ht]) p hpa
      · simp only [List.mem_singleton] at hpb
        subst hpb
        intro hcon
        refine hnd2.1 ?_
        rw [show s.name = t.name from hcon]
        exact List.mem_map_of_mem Subject.name ht
    · exact hnd2.2

/-- When blueprint names are pairwise distinct, the dict comprehension keeps
every blueprint as its own entry, in order. -/
lemma buildDict_of_nodup (bs : List Subject) (hnd : (bs.map Subject.name).Nodup) :
    buildDict bs = bs.map (fun s => (s.name, s)) := by
  rw [buildDict, foldl_insertDict_fresh bs [] (by simp) hnd]
  simp

lemma sumLen_map_blueprints (bs : List Subject) :
    sumLen (bs.map (fun s => (s.name, s))) = (bs.map (fun s => s.answers.length)).sum := by
  simp [sumLen, List.map_map, Function.comp_def]

lemma mkChecked_inv (nm : String) (bs : List Subject) (c : QuizCategory)
    (h : QuizCategory.mkChecked nm bs = .ok c) :
    c = ⟨nm, ⟨buildDict bs, 0⟩⟩ ∧
    sumLen (buildDict bs) = NUM_QUESTIONS_PER_CATEGORY := by
  rw [QuizCategory.mkChecked] at h
  split at h
  · next hcond =>
    simp only [Except.ok.injEq] at h
    exact ⟨h.symm, by simpa [SAView.total_length] using hcond⟩
  · simp at h

lemma mkChecked_ok (nm : String) (bs : List Subject)
    (h : sumLen (buildDict bs) = NUM_QUESTIONS_PER_CATEGORY) :
    QuizCategory.mkChecked nm bs = .ok ⟨nm, ⟨buildDict bs, 0⟩⟩ := by
  rw [QuizCategory.mkChecked, if_pos (by simpa [SAView.total_length] using h)]

lemma mkChecked_err (nm : String) (bs : List Subject)
    (h : ¬ sumLen (buildDict bs) = NUM_QUESTIONS_PER_CATEGORY) :
    QuizCategory.mkChecked nm bs = .error .assertionError := by
  rw [QuizCategory.mkChecked, if_neg (by simpa [SAView.total_length] using h)]

lemma quiz_mkChecked_inv (tb cb : List Subject) (q : Quiz)
    (h : Quiz.mkChecked tb cb = .ok q) :
    q = ⟨⟨"Temel", ⟨buildDict tb, 0⟩⟩, ⟨"Klinik", ⟨buildDict cb, 0⟩⟩, .theoretical⟩ ∧
    sumLen (buildDict tb) = NUM_QUESTIONS_PER_CATEGORY ∧
    sumLen (buildDict cb) = NUM_QUESTIONS_PER_CATEGORY := by
  rw [Quiz.mkChecked] at h
  split at h
  · simp at h
  · next t heqt =>
    split at h
    · simp at h
    · next c heqc =>
      simp only [Except.ok.injEq] at h
      obtain ⟨ht, hsum_t⟩ := mkChecked_inv _ _ _ heqt
      obtain ⟨hc, hsum_c⟩ := mkChecked_inv _ _ _ heqc
      exact ⟨by rw [← h, ht, hc], hsum_t, hsum_c⟩

/-- Inversion for `Quiz.update` while the theoretical category is active: the
returned flag is always `false`; the clinical category is untouched; the active
category switches exactly when `update_next` reported the view full. -/
lemma quiz_update_inv_theoretical (q : Quiz) (a : Answer) (b : Bool) (q' : Quiz)
    (hq : q.current = .theoretical) (h : q.update a = .ok (b, q')) :
    ∃ bt v', q.theoretical.view.update_next a = .ok (bt, v') ∧ b = false ∧
      q'.theoretical = ⟨q.theoretical.name, v'⟩ ∧ q'.clinical = q.clinical ∧
      q'.current = (if bt then ActiveCat.clinical else ActiveCat.theoretical) := by
  rw [Quiz.update] at h
  split at h
  · next hcur =>
    split at h
    · simp at h
    · next full v1 hequ =>
      refine ⟨full, v1, hequ, ?_⟩
      cases full with
      | false =>
        rw [if_neg Bool.false_ne_true] at h
        simp only [Except.ok.injEq, Prod.mk.injEq] at h
        obtain ⟨hb, hq'⟩ := h
        subst hq'
        exact ⟨hb.symm, rfl, rfl, by simpa using hq⟩
      | true =>
        rw [if_pos rfl] at h
        simp only [Except.ok.injEq, Prod.mk.injEq] at h
        obtain ⟨hb, hq'⟩ := h
        subst hq'
        exact ⟨hb.symm, rfl, rfl, by simp⟩
  · next hcur =>
    rw [hcur] at hq
    simp at hq

/-- Inversion for `Quiz.update` while the clinical category is active: the
result flag is exactly the view's completion flag; the theoretical category and
the active tag are untouched. -/
lemma quiz_update_inv_clinical (q : Quiz) (a : Answer) (b : Bool) (q' : Quiz)
    (hq : q.current = .clinical) (h : q.update a = .ok (b, q')) :
    ∃ v', q.clinical.view.update_next a = .ok (b, v') ∧
      q'.clinical = ⟨q.clinical.name, v'⟩ ∧ q'.theoretical = q.theoretical ∧
      q'.current = q.current := by
  rw [Quiz.update] at h
  split at h
  · next hcur =>
    rw [hcur] at hq
    simp at hq
  · next hcur =>
    split at h
    · simp at h
    · next full v1 hequ =>
      simp only [Except.ok.injEq, Prod.mk.injEq] at h
      obtain ⟨hb, hq'⟩ := h
      subst hq'
      subst hb
      exact ⟨v1, hequ, rfl, rfl, rfl⟩

/-- Inversion for `Quiz.erase`: the active tag never changes and the erase is
delegated to the active view, leaving the other category untouched. -/
lemma quiz_erase_inv (q : Quiz) (b : Bool) (q' : Quiz) (h : q.erase = .ok (b, q')) :
    q'.current = q.current ∧
    ((q.current = .theoretical ∧ ∃ v', q.theoretical.view.erase_last = .ok (b, v') ∧
        q' = ⟨⟨q.theoretical.name, v'⟩, q.clinical, q.current⟩) ∨
     (q.current = .clinical ∧ ∃ v', q.clinical.view.erase_last = .ok (b, v') ∧
        q' = ⟨q.theoretical, ⟨q.clinical.name, v'⟩, q.current⟩)) := by
  rw [Quiz.erase] at h
  split at h
  · next hcur =>
    split at h
    · simp at h
    · next b1 v1 heqe =>
      simp only [Except.ok.injEq, Prod.mk.injEq] at h
      obtain ⟨hb, hq'⟩ := h
      subst hq'
      subst hb
      exact ⟨rfl, Or.inl ⟨hcur, v1, heqe, rfl⟩⟩
  · next hcur =>
    split at h
    · simp at h
    · next b1 v1 heqe =>
      simp only [Except.ok.injEq, Prod.mk.injEq] at h
      obtain ⟨hb, hq'⟩ := h
      subst hq'
      subst hb
      exact ⟨rfl, Or.inr ⟨hcur, v1, heqe, rfl⟩⟩

/-- The quiz state invariant: sound cursors in both views, and the coupling
between the active tag and the theoretical view's fill level — theoretical is
active exactly while it is not yet full. -/
def QInv (q : Quiz) : Prop :=
  keysND q.theoretical.view.data ∧ keysND q.clinical.view.data ∧
  0 ≤ q.theoretical.view.index_to_update ∧
  q.theoretical.view.index_to_update ≤ (q.theoretical.view.total_length : Int) ∧
  0 ≤ q.clinical.view.index_to_update ∧
  q.clinical.view.index_to_update ≤ (q.clinical.view.total_length : Int) ∧
  (q.current = ActiveCat.theoretical →
    q.theoretical.view.index_to_update < (q.theoretical.view.total_length : Int)) ∧
  (q.current = ActiveCat.clinical →
    q.theoretical.view.index_to_update = (q.theoretical.view.total_length : Int))

lemma update_QInv (q : Quiz) (a : Answer) (b : Bool) (q' : Quiz)
    (hI : QInv q) (h : q.update a = .ok (b, q')) : QInv q' := by
  obtain ⟨hndT, hndC, ht0, ht1, hc0, hc1, hth, hcl⟩ := hI
  cases hcur : q.current with
  | theoretical =>
    obtain ⟨bt, v', hupd, hb, hT, hC, hcur'⟩ :=
      quiz_update_inv_theoretical q a b q' hcur h
    obtain ⟨hu0, hu1, hu2, hu3, _, hu5⟩ := update_next_ok_inv _ a bt v' hndT hupd
    have htot : v'.total_length = q.theoretical.view.total_length := by
      simp [SAView.total_length, segShape_sumLen hu3]
    have hknd : keysND v'.data := segShape_keysND hu3.symm hndT
    refine ⟨by rw [hT]; exact hknd, by rw [hC]; exact hndC, ?_, ?_, ?_, ?_, ?_, ?_⟩
    · rw [hT]; simp only; omega
    · rw [hT]; simp only [htot]; omega
    · rw [hC]; exact hc0
    · rw [hC]; exact hc1
    · intro hq'
      rw [hcur'] at hq'
      have hbt : bt = false := by
        cases bt with
        | false => rfl
        | true => simp at hq'
      subst hbt
      have hne : ¬(q.theoretical.view.index_to_update + 1
          = (q.theoretical.view.total_length : Int)) := by
        intro hcon
        rw [hcon] at hu5
        simp at hu5
      rw [hT]; simp only [htot]; omega
    · intro hq'
      rw [hcur'] at hq'
      have hbt : bt = true := by
        cases bt with
        | true => rfl
        | false => simp at hq'
      subst hbt
      have heqf : q.theoretical.view.index_to_update + 1
          = (q.theoretical.view.total_length : Int) := by
        rw [eq_comm] at hu5
        simpa using hu5
      rw [hT]; simp only [htot]; omega
  | clinical =>
    obtain ⟨v', hupd, hC, hT, hcur'⟩ := quiz_update_inv_clinical q a b q' hcur h
    obtain ⟨hu0, hu1, hu2, hu3, _, _⟩ := update_next_ok_inv _ a b v' hndC hupd
    have htot : v'.total_length = q.clinical.view.total_length := by
      simp [SAView.total_length, segShape_sumLen hu3]
    have hknd : keysND v'.data := segShape_keysND hu3.symm hndC
    refine ⟨by rw [hT]; exact hndT, by rw [hC]; exact hknd, ?_, ?_, ?_, ?_, ?_, ?_⟩
    · rw [hT]; exact ht0
    · rw [hT]; exact ht1
    · rw [hC]; simp only; omega
    · rw [hC]; simp only [htot]; omega
    · intro hq'
      rw [hcur', hcur] at hq'
      simp at hq'
    · intro _
      rw [hT]
      exact hcl hcur

lemma erase_QInv (q : Quiz) (b : Bool) (q' : Quiz)
    (hI : QInv q) (h : q.erase = .ok (b, q')) : QInv q' := by
  obtain ⟨hndT, hndC, ht0, ht1, hc0, hc1, hth, hcl⟩ := hI
  obtain ⟨hcur', hcases⟩ := quiz_erase_inv q b q' h
  rcases hcases with ⟨hcur, v', heqe, hq'⟩ | ⟨hcur, v', heqe, hq'⟩
  · rcases erase_last_ok_inv _ b v' hndT heqe with ⟨_, hvv, _⟩ | ⟨he0, he1, _, he3, he4, _⟩
    · subst hq'
      subst hvv
      exact ⟨hndT, hndC, ht0, ht1, hc0, hc1,
        fun hx => hth (by rw [← hcur'] at hx ⊢; exact hx),
        fun hx => hcl (by rw [← hcur'] at hx ⊢; exact hx)⟩
    · subst hq'
      have htot : v'.total_length = q.theoretical.view.total_length := by
        simp [SAView.total_length, segShape_sumLen he4]
      have hknd : keysND v'.data := segShape_keysND he4.symm hndT
      refine ⟨hknd, hndC, ?_, ?_, hc0, hc1, ?_, ?_⟩
      · simp only; omega
      · simp only [htot]; omega
      · intro _
        have := hth hcur
        simp only [htot]; omega
      · intro hx
        simp only at hx
        rw [hx] at hcur
        simp at hcur
  · rcases erase_last_ok_inv _ b v' hndC heqe with ⟨_, hvv, _⟩ | ⟨he0, he1, _, he3, he4, _⟩
    · subst hq'
      subst hvv
      exact ⟨hndT, hndC, ht0, ht1, hc0, hc1,
        fun hx => hth (by rw [← hcur'] at hx ⊢; exact hx),
        fun hx => hcl (by rw [← hcur'] at hx ⊢; exact hx)⟩
    · subst hq'
      have htot : v'.total_length = q.clinical.view.total_length := by
        simp [SAView.total_length, segShape_sumLen he4]
      have hknd : keysND v'.data := segShape_keysND he4.symm hndC
      refine ⟨hndT, hknd, ht0, ht1, ?_, ?_, ?_, ?_⟩
      · simp only; omega
      · simp only [htot]; omega
      · intro hx
        simp only at hx
        rw [hx] at hcur
        simp at hcur
      · intro _
        exact hcl hcur

lemma applyOp_QInv (q : Quiz) (op : QuizOp) (b : Bool) (q' : Quiz)
    (hI : QInv q) (h : q.applyOp op = .ok (b, q')) : QInv q' := by
  cases op with
  | upd a => exact update_QInv q a b q' hI h
  | erase => exact erase_QInv q b q' hI h

lemma runQuizOps_QInv (ops : List QuizOp) (q q' : Quiz)
    (hI : QInv q) (h : runQuizOps q ops = .ok q') : QInv q' := by
  induction ops generalizing q with
  | nil =>
    rw [runQuizOps] at h
    simp only [Except.ok.injEq] at h
    rw [← h]
    exact hI
  | cons op rest ih =>
    rw [runQuizOps] at h
    split at h
    · simp at h
    · next r q1 heq =>
      exact ih q1 (applyOp_QInv q op r q1 hI heq) h

lemma applyOp_stays_clinical (q : Quiz) (op : QuizOp) (b : Bool) (q' : Quiz)
    (hc : q.current = .clinical) (h : q.applyOp op = .ok (b, q')) :
    q'.current = .clinical := by
  cases op with
  | upd a =>
    obtain ⟨_, _, _, _, hcur'⟩ := quiz_update_inv_clinical q a b q' hc h
    rw [hcur', hc]
  | erase =>
    obtain ⟨hcur', _⟩ := quiz_erase_inv q b q' h
    rw [hcur', hc]

lemma runQuizOps_stays_clinical (ops : List QuizOp) (q q' : Quiz)
    (hc : q.current = .clinical) (h : runQuizOps q ops = .ok q') :
    q'.current = .clinical := by
  induction ops generalizing q with
  | nil =>
    rw [runQuizOps] at h
    simp only [Except.ok.injEq] at h
    rw [← h]
    exact hc
  | cons op rest ih =>
    rw [runQuizOps] at h
    split at h
    · simp at h
    · next r q1 heq =>
      exact ih q1 (applyOp_stays_clinical q op r q1 hc heq) h

/-- The concrete state of a freshly constructed default `Quiz()`. -/
def dq : Quiz :=
  ⟨⟨"Temel", ⟨theoretical_blueprints.map (fun s => (s.name, s)), 0⟩⟩,
   ⟨"Klinik", ⟨clinical_blueprints.map (fun s => (s.name, s)), 0⟩⟩,
   ActiveCat.theoretical⟩

deriving instance DecidableEq for Except

lemma defaultQuiz_eq : defaultQuiz = .ok dq := by decide

/-- State reached after `k` update calls on the default quiz: theoretical fills
first, the active tag flips at call 100, clinical fills next, and the clinical
category is untouched during the whole theoretical phase. -/
def PQ (k : Nat) (q : Quiz) : Prop :=
  keysND q.theoretical.view.data ∧ keysND q.clinical.view.data ∧
  q.theoretical.view.total_length = 100 ∧ q.clinical.view.total_length = 100 ∧
  (k < 100 → q.current = ActiveCat.theoretical ∧
     q.theoretical.view.index_to_update = (k : Int)) ∧
  (100 ≤ k → q.current = ActiveCat.clinical ∧
     q.theoretical.view.index_to_update = 100 ∧
     q.clinical.view.index_to_update = (k : Int) - 100 ∧ k ≤ 200) ∧
  (k ≤ 100 → q.clinical = dq.clinical)

instance PQ_decidable (k : Nat) (q : Quiz) : Decidable (PQ k q) := by
  unfold PQ; infer_instance

lemma PQ_zero : PQ 0 dq := by decide

lemma PQ_le200 (k : Nat) (q : Quiz) (hP : PQ k q) : k ≤ 200 := by
  by_cases hk : k < 100
  · omega
  · exact (hP.2.2.2.2.2.1 (by omega)).2.2.2

lemma update_next_ok_fwd (v : SAView) (a : Answer) (hnd : keysND v.data)
    (h0 : 0 ≤ v.index_to_update) (h1 : v.index_to_update < (v.total_length : Int)) :
    ∃ v', v.update_next a
        = .ok (decide (v.index_to_update + 1 = (v.total_length : Int)), v') ∧
      v'.index_to_update = v.index_to_update + 1 ∧
      segShape v'.data = segShape v.data := by
  obtain ⟨v1, hset, hcur, hshape, _⟩ := setItem_spec v v.index_to_update a hnd h0 h1
  refine ⟨⟨v1.data, v1.index_to_update + 1⟩, ?_, by simp [hcur], by simpa using hshape⟩
  rw [SAView.update_next, if_neg (by omega)]
  simp only [hset]
  have htot : sumLen v1.data = sumLen v.data := segShape_sumLen hshape
  simp only [SAView.total_length, htot, hcur]

lemma quiz_update_eq_theoretical (t c : QuizCategory) (a : Answer) (bt : Bool)
    (v' : SAView) (hupd : t.view.update_next a = .ok (bt, v')) :
    Quiz.update ⟨t, c, ActiveCat.theoretical⟩ a
      = .ok (false, ⟨⟨t.name, v'⟩, c,
          if bt then ActiveCat.clinical else ActiveCat.theoretical⟩) := by
  rw [Quiz.update]
  simp only [hupd]
  cases bt <;> simp

lemma quiz_update_eq_clinical (t c : QuizCategory) (a : Answer) (b : Bool)
    (v' : SAView) (hupd : c.view.update_next a = .ok (b, v')) :
    Quiz.update ⟨t, c, ActiveCat.clinical⟩ a
      = .ok (b, ⟨t, ⟨c.name, v'⟩, ActiveCat.clinical⟩) := by
  rw [Quiz.update]
  simp only [hupd]

lemma quiz_update_err_clinical (t c : QuizCategory) (a : Answer) (e : Err)
    (hupd : c.view.update_next a = .error e) :
    Quiz.update ⟨t, c, ActiveCat.clinical⟩ a = .error e := by
  rw [Quiz.update]
  simp only [hupd]

/-- One update call on a state `k` calls deep into the default fill run:
it succeeds, reports completion exactly at call 200, and re-establishes the
run invariant. -/
lemma PQ_step (k : Nat) (q : Quiz) (a : Answer) (hP : PQ k q) (hk : k < 200) :
    ∃ q', q.update a = .ok (decide (k = 199), q') ∧ PQ (k + 1) q' := by
  obtain ⟨t, c, cur⟩ := q
  obtain ⟨hndT, hndC, htl, hcl, hlt, hge, hcl100⟩ := hP
  by_cases hk100 : k < 100
  · obtain ⟨hcur, htcur⟩ := hlt hk100
    have hcur' : cur = ActiveCat.theoretical := hcur
    subst hcur'
    have htcur' : t.view.index_to_update = (k : Int) := htcur
    have htl' : t.view.total_length = 100 := htl
    obtain ⟨v', hupd, hvcur, hvshape⟩ := update_next_ok_fwd t.view a hndT
      (by omega) (by rw [htcur', htl']; push_cast; omega)
    have hbt : decide (t.view.index_to_update + 1 = (t.view.total_length : Int))
        = decide (k + 1 = 100) := by
      apply decide_eq_decide.mpr
      rw [htcur', htl']
      push_cast
      omega
    rw [hbt] at hupd
    have hvtot : v'.total_length = 100 := by
      have := segShape_sumLen hvshape
      simp only [SAView.total_length] at htl' ⊢
      omega
    have hvnd : keysND v'.data := segShape_keysND hvshape.symm hndT
    have hflag : decide (k = 199) = false := decide_eq_false (by omega)
    by_cases hk1 : k + 1 = 100
    · have hdec : decide (k + 1 = 100) = true := by simp [hk1]
      rw [hdec] at hupd
      have hstep := quiz_update_eq_theoretical t c a true v' hupd
      rw [if_pos rfl] at hstep
      refine ⟨⟨⟨t.name, v'⟩, c, ActiveCat.clinical⟩, by rw [hflag]; exact hstep, ?_⟩
      refine ⟨hvnd, hndC, hvtot, hcl, by omega, ?_, ?_⟩
      · intro _
        refine ⟨rfl, ?_, ?_, by omega⟩
        · show v'.index_to_update = 100
          rw [hvcur, htcur']
          omega
        · show c.view.index_to_update = ((k + 1 : Nat) : Int) - 100
          have hcc : c = dq.clinical := hcl100 (by omega)
          rw [hcc]
          show (0 : Int) = ((k + 1 : Nat) : Int) - 100
          push_cast
          omega
      · intro _
        exact hcl100 (by omega)
    · have hdec : decide (k + 1 = 100) = false := by simp [hk1]
      rw [hdec] at hupd
      have hstep := quiz_update_eq_theoretical t c a false v' hupd
      rw [if_neg Bool.false_ne_true] at hstep
      refine ⟨⟨⟨t.name, v'⟩, c, ActiveCat.theoretical⟩, by rw [hflag]; exact hstep, ?_⟩
      refine ⟨hvnd, hndC, hvtot, hcl, ?_, by omega, ?_⟩
      · intro _
        refine ⟨rfl, ?_⟩
        show v'.index_to_update = ((k + 1 : Nat) : Int)
        rw [hvcur, htcur']
        push_cast
        omega
      · intro _
        exact hcl100 (by omega)
  · obtain ⟨hcur, htcur, hccur, hk200⟩ := hge (by omega)
    have hcur' : cur = ActiveCat.clinical := hcur
    subst hcur'
    have htcur' : t.view.index_to_update = (100 : Int) := htcur
    have hccur' : c.view.index_to_update = (k : Int) - 100 := hccur
    have hcl' : c.view.total_length = 100 := hcl
    obtain ⟨v', hupd, hvcur, hvshape⟩ := update_next_ok_fwd c.view a hndC
      (by rw [hccur']; omega) (by rw [hccur', hcl']; push_cast; omega)
    have hbt : decide (c.view.index_to_update + 1 = (c.view.total_length : Int))
        = decide (k = 199) := by
      apply decide_eq_decide.mpr
      rw [hccur', hcl']
      push_cast
      omega
    rw [hbt] at hupd
    have hstep := quiz_update_eq_clinical t c a (decide (k = 199)) v' hupd
    have hvtot : v'.total_length = 100 := by
      have := segShape_sumLen hvshape
      simp only [SAView.total_length] at hcl' ⊢
      omega
    have hvnd : keysND v'.data := segShape_keysND hvshape.symm hndC
    refine ⟨_, hstep, ?_⟩
    refine ⟨hndT, hvnd, htl, hvtot, by omega, ?_, by omega⟩
    intro _
    refine ⟨rfl, htcur', ?_, by omega⟩
    simp only [hvcur, hccur']
    push_cast
    omega

lemma PQ_200_err (q : Quiz) (a : Answer) (hP : PQ 200 q) :
    q.update a = .error .indexError := by
  obtain ⟨t, c, cur⟩ := q
  obtain ⟨hndT, hndC, htl, hcl, hlt, hge, hcl100⟩ := hP
  obtain ⟨hcur, htcur, hccur, _⟩ := hge (by omega)
  have hcur' : cur = ActiveCat.clinical := hcur
  subst hcur'
  have hccur' : c.view.index_to_update = (100 : Int) := by
    have : c.view.index_to_update = ((200 : Nat) : Int) - 100 := hccur
    omega
  have hcl' : c.view.total_length = 100 := hcl
  have herr : c.view.update_next a = .error .indexError := by
    apply update_next_exhausted
    rw [hccur', hcl']
    norm_num
  exact quiz_update_err_clinical t c a .indexError herr

/-- A run of updates from a `PQ` state that stays within the 200-call budget
succeeds and produces `true` exactly for the call numbered 200 (index 199). -/
lemma runUpdates_PQ (as : List Answer) (k : Nat) (q : Quiz) (hP : PQ k q)
    (hlen : k + as.length ≤ 200) :
    ∃ res q', runUpdates q as = .ok (res, q') ∧ PQ (k + as.length) q' ∧
      res = (List.range as.length).map (fun j => decide (k + j = 199)) := by
  induction as generalizing k q with
  | nil =>
    refine ⟨[], q, by rw [runUpdates], by simpa using hP, by simp⟩
  | cons a rest ih =>
    obtain ⟨q1, hstep, hP1⟩ := PQ_step k q a hP (by simp at hlen; omega)
    obtain ⟨res, q2, hrun, hP2, hres⟩ := ih (k + 1) q1 hP1 (by simp at hlen ⊢; omega)
    refine ⟨decide (k = 199) :: res, q2, ?_, ?_, ?_⟩
    · rw [runUpdates]
      simp only [hstep, hrun]
    · have heq : k + (a :: rest).length = k + 1 + rest.length := by simp; omega
      rw [heq]
      exact hP2
    · simp only [List.length_cons, List.range_succ_eq_map, List.map_cons, List.map_map]
      congr 1
      rw [hres]
      apply List.map_congr_left
      intro j _
      simp only [Function.comp_apply]
      exact decide_eq_decide.mpr (by omega)

/-- A run of updates that would exceed the 200-call budget raises. -/
lemma runUpdates_err (as : List Answer) (k : Nat) (q : Quiz) (hP : PQ k q)
    (hlen : 200 < k + as.length) : ∃ e, runUpdates q as = .error e := by
  induction as generalizing k q with
  | nil =>
    have := PQ_le200 k q hP
    simp at hlen
    omega
  | cons a rest ih =>
    by_cases hk : k < 200
    · obtain ⟨q1, hstep, hP1⟩ := PQ_step k q a hP hk
      obtain ⟨e, herr⟩ := ih (k + 1) q1 hP1 (by simp at hlen ⊢; omega)
      refine ⟨e, ?_⟩
      rw [runUpdates]
      simp only [hstep, herr]
    · have hk200 : k = 200 := by
        have := PQ_le200 k q hP
        omega
      subst hk200
      refine ⟨.indexError, ?_⟩
      rw [runUpdates]
      simp only [PQ_200_err q a hP]

/-- A small concrete view used to witness the view-level theorems. -/
def vEx : SAView :=
  ⟨[("A", ⟨"A", [Answer.MISSING, Answer.MISSING]⟩),
    ("B", ⟨"B", [Answer.MISSING, Answer.MISSING, Answer.MISSING]⟩)], 0⟩

/-- C10: for every view (whose segment table is, by construction, laid out
contiguously from 0 in mapping iteration order) and every in-range absolute
index, the linear scan finds a containing segment, so the trailing
`RuntimeError` branch of `_get_internal_coords` is unreachable. -/
theorem scan_covers_all_indices : ∀ (v : SAView) (i : Int),
    ((0 ≤ i ∧ i < (v.total_length : Int)) →
      ∃ k j sub, v.get_internal_coords i = .ok (k, j, sub)) ∧
    v.get_internal_coords i ≠ .error .runtimeError := by
  intro v i
  constructor
  · intro hb
    obtain ⟨pre, k, sub, post, _, _, _, hc⟩ := coords_split v i hb.1 hb.2
    exact ⟨k, _, sub, hc⟩
  · by_cases hb : 0 ≤ i ∧ i < (v.total_length : Int)
    · obtain ⟨pre, k, sub, post, _, _, _, hc⟩ := coords_split v i hb.1 hb.2
      rw [hc]
      simp
    · rw [coords_out v i hb]
      simp

theorem scan_covers_all_indices_witness :
    (0 ≤ (3 : Int) ∧ (3 : Int) < (vEx.total_length : Int)) ∧
    (∃ k j sub, vEx.get_internal_coords 3 = .ok (k, j, sub)) ∧
    vEx.get_internal_coords 3 ≠ .error .runtimeError :=
  ⟨by decide, (scan_covers_all_indices vEx 3).1 (by decide),
    (scan_covers_all_indices vEx 3).2⟩

/-- C5: on a view with distinct segment keys (as every dict-built view has),
`get_relative_position` answers every in-range index with a segment name and
internal index through which the same value is read as through `get`, and
answers every out-of-range index with `none` instead of failing. -/
theorem locate_get_consistent : ∀ (v : SAView) (i : Int), keysND v.data →
    ((0 ≤ i ∧ i < (v.total_length : Int)) →
      ∃ k j sub a, v.get_relative_position i = .ok (some (k, j)) ∧
        lookupD v.data k = some sub ∧ sub.getItem (j : Int) = .ok a ∧
        v.getItem i = .ok a) ∧
    (¬(0 ≤ i ∧ i < (v.total_length : Int)) → v.get_relative_position i = .ok none) := by
  intro v i hnd
  constructor
  · intro hb
    obtain ⟨pre, k, sub, post, hd, hlo, hhi, hc⟩ := coords_split v i hb.1 hb.2
    have hjlt : (i - (sumLen pre : Int)).toNat < sub.answers.length := by omega
    refine ⟨k, (i - (sumLen pre : Int)).toNat, sub,
      sub.answers.get ⟨(i - (sumLen pre : Int)).toNat, hjlt⟩, ?_, ?_, ?_, ?_⟩
    · simp only [SAView.get_relative_position, hc]
    · rw [hd]
      exact lookupD_split pre post k sub (hd ▸ hnd)
    · simp only [Subject.getItem]
      exact pyListGet_ofNat _ _ hjlt
    · simp only [SAView.getItem, hc, Subject.getItem]
      exact pyListGet_ofNat _ _ hjlt
  · intro hb
    simp only [SAView.get_relative_position, coords_out v i hb]

theorem locate_get_consistent_witness :
    (∃ k j sub a, vEx.get_relative_position 3 = .ok (some (k, j)) ∧
      lookupD vEx.data k = some sub ∧ sub.getItem (j : Int) = .ok a ∧
      vEx.getItem 3 = .ok a) ∧
    vEx.get_relative_position (-1) = .ok none :=
  ⟨(locate_get_consistent vEx 3 (by decide)).1 (by decide),
    (locate_get_consistent vEx (-1) (by decide)).2 (by decide)⟩

/-- C6: a successful `set` is read back by `get` at the same index, and every
other index (in range or not) reads exactly as before. -/
theorem set_get_roundtrip_frame : ∀ (v : SAView) (i : Int) (a : Answer) (v' : SAView),
    keysND v.data → v.setItem i a = .ok v' →
    v'.getItem i = .ok a ∧ ∀ j, j ≠ i → v'.getItem j = v.getItem j := by
  intro v i a v' hnd hset
  have hb := setItem_ok_bounds v i a v' hset
  obtain ⟨v2, hset2, hcur2, hshape2, hflat2⟩ := setItem_spec v i a hnd hb.1 hb.2
  have hv : v2 = v' := Except.ok.inj (hset2.symm.trans hset)
  subst hv
  have htot : v2.total_length = v.total_length := by
    simp only [SAView.total_length]
    exact segShape_sumLen hshape2
  have hlen : i.toNat < (flattenD v.data).length := by
    rw [flattenD_length]
    have h2 := hb.2
    simp only [SAView.total_length] at h2
    omega
  constructor
  · obtain ⟨a', hg, hf⟩ := getItem_spec v2 i hb.1 (by rw [htot]; exact hb.2)
    rw [hflat2, List.getElem?_set_eq_of_lt a hlen] at hf
    have haa : a = a' := Option.some.inj hf
    rw [hg, ← haa]
  · intro j hj
    by_cases hjb : 0 ≤ j ∧ j < (v.total_length : Int)
    · obtain ⟨a1, hg1, hf1⟩ := getItem_spec v j hjb.1 hjb.2
      obtain ⟨a2, hg2, hf2⟩ := getItem_spec v2 j hjb.1 (by rw [htot]; exact hjb.2)
      have hne : i.toNat ≠ j.toNat := by omega
      rw [hflat2, List.getElem?_set_ne hne, hf1] at hf2
      have haa : a1 = a2 := Option.some.inj hf2
      rw [hg1, hg2, haa]
    · rw [getItem_out v j hjb, getItem_out v2 j (by rw [htot]; exact hjb)]

/-- State of `vEx` after writing CORRECT at absolute index 2 (slot 0 of "B"). -/
def vExSet : SAView :=
  ⟨[("A", ⟨"A", [Answer.MISSING, Answer.MISSING]⟩),
    ("B", ⟨"B", [Answer.CORRECT, Answer.MISSING, Answer.MISSING]⟩)], 0⟩

theorem set_get_roundtrip_frame_witness :
    vExSet.getItem 2 = .ok Answer.CORRECT ∧
    ∀ j, j ≠ (2 : Int) → vExSet.getItem j = vEx.getItem j :=
  set_get_roundtrip_frame vEx 2 Answer.CORRECT vExSet (by decide) (by decide)

/-- C3: a successful `update_next` at cursor `c` followed by `erase_last` puts
the cursor back at `c`, resets slot `c` to MISSING, and leaves every other
slot (and the view's length) unchanged. -/
theorem update_then_erase_cancels : ∀ (v : SAView) (a : Answer) (b : Bool) (v1 : SAView),
    keysND v.data → v.update_next a = .ok (b, v1) →
    ∃ v2, v1.erase_last = .ok (true, v2) ∧
      v2.index_to_update = v.index_to_update ∧
      v2.getItem v.index_to_update = .ok Answer.MISSING ∧
      (∀ j, j ≠ v.index_to_update → v2.getItem j = v.getItem j) ∧
      v2.total_length = v.total_length := by
  intro v a b v1 hnd hupd
  obtain ⟨h0, h1, hcur1, hshape1, hflat1, _⟩ := update_next_ok_inv v a b v1 hnd hupd
  have hnd1 : keysND v1.data := segShape_keysND hshape1.symm hnd
  have htot1 : v1.total_length = v.total_length := by
    simp only [SAView.total_length]
    exact segShape_sumLen hshape1
  have hcsub : v1.index_to_update - 1 = v.index_to_update := by omega
  obtain ⟨v2, hset2, hcur2, hshape2, hflat2⟩ :=
    setItem_spec ⟨v1.data, v.index_to_update⟩ v.index_to_update Answer.MISSING hnd1 h0
      (by have h1x := h1; simp only [SAView.total_length] at h1x htot1 ⊢; omega)
  have herase : v1.erase_last = .ok (true, v2) := by
    rw [SAView.erase_last, if_neg (by omega), if_neg (by omega), hcsub]
    simp only [hset2]
  have htot2 : v2.total_length = v.total_length := by
    simp only [SAView.total_length] at htot1 ⊢
    have := segShape_sumLen hshape2
    simp only [SAView.total_length] at this
    omega
  have hflat : flattenD v2.data = (flattenD v.data).set v.index_to_update.toNat
      Answer.MISSING := by
    rw [hflat2]
    simp only
    rw [hflat1, List.set_set]
  have hlen : v.index_to_update.toNat < (flattenD v.data).length := by
    rw [flattenD_length]
    have h2 := h1
    simp only [SAView.total_length] at h2
    omega
  refine ⟨v2, herase, by rw [hcur2], ?_, ?_, htot2⟩
  · obtain ⟨a', hg, hf⟩ := getItem_spec v2 v.index_to_update h0 (by rw [htot2]; exact h1)
    rw [hflat, List.getElem?_set_eq_of_lt Answer.MISSING hlen] at hf
    rw [hg, ← Option.some.inj hf]
  · intro j hj
    by_cases hjb : 0 ≤ j ∧ j < (v.total_length : Int)
    · obtain ⟨a1, hg1, hf1⟩ := getItem_spec v j hjb.1 hjb.2
      obtain ⟨a2, hg2, hf2⟩ := getItem_spec v2 j hjb.1 (by rw [htot2]; exact hjb.2)
      have hne : v.index_to_update.toNat ≠ j.toNat := by omega
      rw [hflat, List.getElem?_set_ne hne, hf1] at hf2
      rw [hg1, hg2, Option.some.inj hf2]
    · rw [getItem_out v j hjb, getItem_out v2 j (by rw [htot2]; exact hjb)]

/-- State of `vEx` after one `update_next` with CORRECT (cursor 1, slot 0 set). -/
def vExUpd : SAView :=
  ⟨[("A", ⟨"A", [Answer.CORRECT, Answer.MISSING]⟩),
    ("B", ⟨"B", [Answer.MISSING, Answer.MISSING, Answer.MISSING]⟩)], 1⟩

theorem update_then_erase_cancels_witness :
    ∃ v2, vExUpd.erase_last = .ok (true, v2) ∧
      v2.index_to_update = vEx.index_to_update ∧
      v2.getItem vEx.index_to_update = .ok Answer.MISSING ∧
      (∀ j, j ≠ vEx.index_to_update → v2.getItem j = vEx.getItem j) ∧
      v2.total_length = vEx.total_length :=
  update_then_erase_cancels vEx Answer.CORRECT false vExUpd (by decide) (by decide)

lemma update_next_cursor_succ (v : SAView) (a : Answer) (b : Bool) (v' : SAView)
    (h : v.update_next a = .ok (b, v')) :
    v'.index_to_update = v.index_to_update + 1 := by
  rw [SAView.update_next] at h
  by_cases hg : (v.total_length : Int) ≤ v.index_to_update
  · rw [if_pos hg] at h
    simp at h
  · rw [if_neg hg] at h
    split at h
    · simp at h
    · next v1 heq =>
      simp only [Except.ok.injEq, Prod.mk.injEq] at h
      rw [← h.2]
      simp only
      rw [setItem_cursor v v.index_to_update a v1 heq]

lemma erase_last_cursor_cases (v : SAView) (b : Bool) (v' : SAView)
    (h : v.erase_last = .ok (b, v')) :
    (v.index_to_update = 0 ∧ v' = v ∧ b = false) ∨
    (b = true ∧ v'.index_to_update = v.index_to_update - 1) := by
  rw [SAView.erase_last] at h
  by_cases hneg : v.index_to_update < 0
  · rw [if_pos hneg] at h
    simp at h
  · rw [if_neg hneg] at h
    by_cases hz : v.index_to_update = 0
    · rw [if_pos hz] at h
      simp only [Except.ok.injEq, Prod.mk.injEq] at h
      exact Or.inl ⟨hz, h.2.symm, h.1.symm⟩
    · rw [if_neg hz] at h
      split at h
      · simp at h
      · next v2 heq =>
        simp only [Except.ok.injEq, Prod.mk.injEq] at h
        refine Or.inr ⟨h.1.symm, ?_⟩
        rw [← h.2]
        exact setItem_cursor _ _ _ _ heq

lemma runSegOps_bounds (ops : List SegOp) (v v' : SAView)
    (hnd : keysND v.data) (h0 : 0 ≤ v.index_to_update)
    (h1 : v.index_to_update ≤ (v.total_length : Int))
    (h : runSegOps v ops = .ok v') :
    keysND v'.data ∧ 0 ≤ v'.index_to_update ∧
    v'.index_to_update ≤ (v'.total_length : Int) := by
  induction ops generalizing v with
  | nil =>
    rw [runSegOps] at h
    simp only [Except.ok.injEq] at h
    rw [← h]
    exact ⟨hnd, h0, h1⟩
  | cons op rest ih =>
    rw [runSegOps] at h
    split at h
    · simp at h
    · next r v1 heq =>
      cases op with
      | upd a =>
        obtain ⟨hu0, hu1, hu2, hu3, _, _⟩ :=
          update_next_ok_inv v a r v1 hnd (by simpa [SAView.applyOp] using heq)
        have htot : v1.total_length = v.total_length := by
          simp only [SAView.total_length]
          exact segShape_sumLen hu3
        exact ih v1 (segShape_keysND hu3.symm hnd) (by omega) (by rw [htot]; omega) h
      | erase =>
        rcases erase_last_ok_inv v r v1 hnd (by simpa [SAView.applyOp] using heq) with
          ⟨_, hvv, _⟩ | ⟨he0, he1, _, he3, he4, _⟩
        · subst hvv
          exact ih v1 hnd h0 h1 h
        · have htot : v1.total_length = v.total_length := by
            simp only [SAView.total_length]
            exact segShape_sumLen he4
          exact ih v1 (segShape_keysND he4.symm hnd) (by omega) (by rw [htot]; omega) h

/-- C4: a successful `update_next` advances the cursor by exactly 1;
`erase_last` never advances it (it steps back by 1, or is a no-op at 0); and in
every state reachable from a fresh view the cursor stays within
`[0, total_length]`. -/
theorem cursor_bounds_and_monotonicity :
    (∀ (v : SAView) (a : Answer) (b : Bool) (v' : SAView),
      v.update_next a = .ok (b, v') →
      v'.index_to_update = v.index_to_update + 1) ∧
    (∀ (v : SAView) (b : Bool) (v' : SAView), v.erase_last = .ok (b, v') →
      v'.index_to_update ≤ v.index_to_update ∧
      ((v.index_to_update = 0 ∧ v' = v ∧ b = false) ∨
       (b = true ∧ v'.index_to_update = v.index_to_update - 1))) ∧
    (∀ (d : SubjectDict) (ops : List SegOp) (v' : SAView), keysND d →
      runSegOps ⟨d, 0⟩ ops = .ok v' →
      0 ≤ v'.index_to_update ∧ v'.index_to_update ≤ (v'.total_length : Int)) := by
  refine ⟨update_next_cursor_succ, ?_, ?_⟩
  · intro v b v' h
    rcases erase_last_cursor_cases v b v' h with hc | hc
    · exact ⟨by rw [hc.2.1], Or.inl hc⟩
    · exact ⟨by omega, Or.inr hc⟩
  · intro d ops v' hnd h
    have hb := runSegOps_bounds ops ⟨d, 0⟩ v' hnd (by simp) (by simp [SAView.total_length]) h
    exact ⟨hb.2.1, hb.2.2⟩

theorem cursor_bounds_and_monotonicity_witness :
    vExUpd.index_to_update = vEx.index_to_update + 1 ∧
    (vEx.index_to_update ≤ vEx.index_to_update ∧
      ((vEx.index_to_update = 0 ∧ vEx = vEx ∧ false = false) ∨
       (false = true ∧ vEx.index_to_update = vEx.index_to_update - 1))) ∧
    (0 ≤ vExUpd.index_to_update ∧
      vExUpd.index_to_update ≤ (vExUpd.total_length : Int)) :=
  ⟨cursor_bounds_and_monotonicity.1 vEx Answer.CORRECT false vExUpd (by decide),
   cursor_bounds_and_monotonicity.2.1 vEx false vEx (by decide),
   cursor_bounds_and_monotonicity.2.2 vEx.data [SegOp.upd Answer.CORRECT] vExUpd
     (by decide) (by decide)⟩

lemma pyListGet_inRange {α : Type} (l : List α) (i : Int)
    (h : -(l.length : Int) ≤ i ∧ i < (l.length : Int)) :
    ∃ x, pyListGet l i = .ok x := by
  simp only [pyListGet]
  rw [dif_pos (by split_ifs <;> omega)]
  exact ⟨_, rfl⟩

lemma pyListGet_outRange {α : Type} (l : List α) (i : Int)
    (h : i < -(l.length : Int) ∨ (l.length : Int) ≤ i) :
    pyListGet l i = .error .indexError := by
  simp only [pyListGet]
  rw [dif_neg (by split_ifs <;> omega)]

lemma pyListSet_inRange {α : Type} (l : List α) (i : Int) (x : α)
    (h : -(l.length : Int) ≤ i ∧ i < (l.length : Int)) :
    ∃ l', pyListSet l i x = .ok l' := by
  simp only [pyListSet]
  rw [if_pos (by split_ifs <;> omega)]
  exact ⟨_, rfl⟩

lemma pyListSet_outRange {α : Type} (l : List α) (i : Int) (x : α)
    (h : i < -(l.length : Int) ∨ (l.length : Int) ≤ i) :
    pyListSet l i x = .error .indexError := by
  simp only [pyListSet]
  rw [if_neg (by split_ifs <;> omega)]

lemma setItem_inRange (v : SAView) (i : Int) (a : Answer)
    (h0 : 0 ≤ i) (h1 : i < (v.total_length : Int)) :
    ∃ v', v.setItem i a = .ok v' := by
  obtain ⟨pre, k, sub, post, hd, hlo, hhi, hc⟩ := coords_split v i h0 h1
  have hjlt : (i - (sumLen pre : Int)).toNat < sub.answers.length := by omega
  refine ⟨⟨v.data.map (updKey k
      ⟨sub.name, sub.answers.set (i - (sumLen pre : Int)).toNat a⟩),
    v.index_to_update⟩, ?_⟩
  simp only [SAView.setItem, hc, Subject.setItem,
    pyListSet_ofNat sub.answers (i - (sumLen pre : Int)).toNat a hjlt]

/-- Counterexample to C7 as stated: a Subject read at the negative index `-1`
(outside `[0, L)`) succeeds — Python list indexing wraps negative indices —
instead of failing with IndexOutOfRange. -/
theorem subject_negative_index_reads :
    (Subject.mk "A" [Answer.MISSING, Answer.EMPTY]).getItem (-1) = .ok Answer.EMPTY ∧
    ¬(0 ≤ (-1 : Int)) := by decide

/-- C7 as amended: Subject get/set succeed exactly on `[-L, L)` (Python-style
negative indexing included) and fail with IndexError outside; the segmented
view's get/set succeed exactly on `[0, N)` and fail with IndexError outside. -/
theorem index_bounds_amended :
    (∀ (s : Subject) (i : Int) (a : Answer),
      ((-(s.answers.length : Int) ≤ i ∧ i < (s.answers.length : Int)) →
        (∃ x, s.getItem i = .ok x) ∧ (∃ s', s.setItem i a = .ok s')) ∧
      ((i < -(s.answers.length : Int) ∨ (s.answers.length : Int) ≤ i) →
        s.getItem i = .error .indexError ∧ s.setItem i a = .error .indexError)) ∧
    (∀ (v : SAView) (i : Int) (a : Answer),
      ((0 ≤ i ∧ i < (v.total_length : Int)) →
        (∃ x, v.getItem i = .ok x) ∧ (∃ v', v.setItem i a = .ok v')) ∧
      (¬(0 ≤ i ∧ i < (v.total_length : Int)) →
        v.getItem i = .error .indexError ∧ v.setItem i a = .error .indexError)) := by
  constructor
  · intro s i a
    constructor
    · intro h
      constructor
      · simp only [Subject.getItem]
        exact pyListGet_inRange s.answers i h
      · obtain ⟨l', hl'⟩ := pyListSet_inRange s.answers i a h
        exact ⟨⟨s.name, l'⟩, by simp only [Subject.setItem, hl']⟩
    · intro h
      constructor
      · simp only [Subject.getItem]
        exact pyListGet_outRange s.answers i h
      · simp only [Subject.setItem, pyListSet_outRange s.answers i a h]
  · intro v i a
    constructor
    · intro h
      constructor
      · obtain ⟨x, hx, _⟩ := getItem_spec v i h.1 h.2
        exact ⟨x, hx⟩
      · exact setItem_inRange v i a h.1 h.2
    · intro h
      exact ⟨getItem_out v i h, setItem_out v i a h⟩

theorem index_bounds_amended_witness :
    ((∃ x, (Subject.mk "A" [Answer.MISSING, Answer.EMPTY]).getItem (-2) = .ok x) ∧
     (∃ s', (Subject.mk "A" [Answer.MISSING, Answer.EMPTY]).setItem (-2)
        Answer.CORRECT = .ok s')) ∧
    ((Subject.mk "A" [Answer.MISSING, Answer.EMPTY]).getItem 2 = .error .indexError ∧
     (Subject.mk "A" [Answer.MISSING, Answer.EMPTY]).setItem 2
        Answer.CORRECT = .error .indexError) ∧
    ((∃ x, vEx.getItem 4 = .ok x) ∧ (∃ v', vEx.setItem 4 Answer.CORRECT = .ok v')) ∧
    (vEx.getItem 5 = .error .indexError ∧
      vEx.setItem 5 Answer.CORRECT = .error .indexError) :=
  ⟨(index_bounds_amended.1 (Subject.mk "A" [Answer.MISSING, Answer.EMPTY]) (-2)
      Answer.CORRECT).1 (by decide),
   (index_bounds_amended.1 (Subject.mk "A" [Answer.MISSING, Answer.EMPTY]) 2
      Answer.CORRECT).2 (by decide),
   (index_bounds_amended.2 vEx 4 Answer.CORRECT).1 (by decide),
   (index_bounds_amended.2 vEx 5 Answer.CORRECT).2 (by decide)⟩

/-- A 10-slot subject with 4 correct, 4 wrong and 2 empty answers. -/
def exSubject : Subject :=
  ⟨"Ornek", List.replicate 4 Answer.CORRECT ++ List.replicate 4 Answer.WRONG
    ++ List.replicate 2 Answer.EMPTY⟩

lemma num_net_sum (l : List (String × Subject)) :
    (l.map (fun p => p.2.num_net)).sum
      = (l.map (fun p => (p.2.num_correct : ℚ))).sum
        - (l.map (fun p => (p.2.num_wrong : ℚ))).sum / 4 := by
  induction l with
  | nil => simp
  | cons p rest ih =>
    simp only [List.map_cons, List.sum_cons]
    rw [ih, Subject.num_net]
    ring

/-- C8: the net score is the exact fraction `correct - wrong / 4` — on the
10-slot example it is exactly 3, not a rounded value — and a category's net
score is the sum of its subjects' net scores. -/
theorem num_net_exact :
    exSubject.question_count = 10 ∧ exSubject.num_correct = 4 ∧
    exSubject.num_wrong = 4 ∧ exSubject.num_empty = 2 ∧ exSubject.num_net = 3 ∧
    (∀ s : Subject, s.num_net = (s.num_correct : ℚ) - (s.num_wrong : ℚ) / 4) ∧
    (∀ c : QuizCategory, c.num_net = (c.map_view.map (fun p => p.2.num_net)).sum) ∧
    (∀ c : QuizCategory, c.num_net = (c.num_correct : ℚ) - (c.num_wrong : ℚ) / 4) := by
  have h1 : exSubject.num_correct = 4 := by decide
  have h2 : exSubject.num_wrong = 4 := by decide
  refine ⟨by decide, h1, h2, by decide, ?_, fun s => rfl, fun c => rfl, ?_⟩
  · rw [Subject.num_net, h1, h2]
    norm_num
  · intro c
    rw [QuizCategory.num_net, num_net_sum, QuizCategory.num_correct,
      QuizCategory.num_wrong, Nat.cast_list_sum, Nat.cast_list_sum,
      List.map_map, List.map_map]
    simp only [Function.comp_def]

/-- A blueprint list whose subject names collide: both subjects are called "A",
so the dict comprehension keeps only one of them. -/
def dupBlueprints : List Subject := [Subject.new "A" 50, Subject.new "A" 50]

/-- Counterexample to C9 as stated: these blueprints sum to exactly 100 slots,
yet category construction fails, because the name-keyed dict comprehension
collapses the two same-named subjects to one 50-slot subject. -/
theorem duplicate_names_full_sum_rejected :
    (dupBlueprints.map (fun s => s.answers.length)).sum = 100 ∧
    QuizCategory.mkChecked "X" dupBlueprints = .error .assertionError := by decide

/-- C9 as amended: for blueprint lists with pairwise-distinct subject names,
category construction succeeds exactly when the blueprint lengths sum to the
expected 100, fails with the construction assertion otherwise, and a failing
theoretical category aborts the whole Quiz construction. -/
theorem category_construction_check_amended :
    ∀ (nm : String) (bs : List Subject), (bs.map Subject.name).Nodup →
      ((∃ c, QuizCategory.mkChecked nm bs = .ok c) ↔
        (bs.map (fun s => s.answers.length)).sum = NUM_QUESTIONS_PER_CATEGORY) ∧
      ((bs.map (fun s => s.answers.length)).sum ≠ NUM_QUESTIONS_PER_CATEGORY →
        QuizCategory.mkChecked nm bs = .error .assertionError) ∧
      (∀ cb : List Subject,
        (bs.map (fun s => s.answers.length)).sum ≠ NUM_QUESTIONS_PER_CATEGORY →
        Quiz.mkChecked bs cb = .error .assertionError) := by
  intro nm bs hnd
  have hsum : sumLen (buildDict bs) = (bs.map (fun s => s.answers.length)).sum := by
    rw [buildDict_of_nodup bs hnd, sumLen_map_blueprints]
  refine ⟨⟨?_, ?_⟩, ?_, ?_⟩
  · intro ⟨c, hc⟩
    obtain ⟨_, hq⟩ := mkChecked_inv nm bs c hc
    rw [← hsum]
    exact hq
  · intro h
    exact ⟨_, mkChecked_ok nm bs (by rw [hsum]; exact h)⟩
  · intro h
    exact mkChecked_err nm bs (by rw [hsum]; exact h)
  · intro cb h
    rw [Quiz.mkChecked]
    simp only [mkChecked_err "Temel" bs (by
      rw [buildDict_of_nodup bs hnd, sumLen_map_blueprints]
      exact h)]

theorem category_construction_check_amended_witness :
    ((∃ c, QuizCategory.mkChecked "X" [Subject.new "T" 100] = .ok c) ↔
      ([Subject.new "T" 100].map (fun s => s.answers.length)).sum
        = NUM_QUESTIONS_PER_CATEGORY) ∧
    (([Subject.new "T" 100].map (fun s => s.answers.length)).sum
        ≠ NUM_QUESTIONS_PER_CATEGORY →
      QuizCategory.mkChecked "X" [Subject.new "T" 100] = .error .assertionError) ∧
    (∀ cb : List Subject,
      ([Subject.new "T" 100].map (fun s => s.answers.length)).sum
          ≠ NUM_QUESTIONS_PER_CATEGORY →
      Quiz.mkChecked [Subject.new "T" 100] cb = .error .assertionError) :=
  category_construction_check_amended "X" [Subject.new "T" 100] (by decide)

/-- C2: on every successfully constructed quiz, the active category starts as
theoretical; in every state reachable through update/erase runs, a full
theoretical view forces the active category to be clinical; and once the active
category is clinical, no further operation run (updates or erases, including
erases that empty the clinical view) ever makes it theoretical again. -/
theorem active_category_forward_only :
    ∀ (tb cb : List Subject) (q0 : Quiz), Quiz.mkChecked tb cb = .ok q0 →
      q0.current = ActiveCat.theoretical ∧
      ∀ (ops : List QuizOp) (q1 : Quiz), runQuizOps q0 ops = .ok q1 →
        (q1.theoretical.view.index_to_update = (q1.theoretical.view.total_length : Int) →
          q1.current = ActiveCat.clinical) ∧
        (q1.current = ActiveCat.clinical →
          ∀ (ops2 : List QuizOp) (q2 : Quiz), runQuizOps q1 ops2 = .ok q2 →
            q2.current = ActiveCat.clinical) := by
  intro tb cb q0 h
  obtain ⟨hq0, hsum_t, hsum_c⟩ := quiz_mkChecked_inv tb cb q0 h
  have hI0 : QInv q0 := by
    rw [hq0]
    refine ⟨buildDict_keysND tb, buildDict_keysND cb, by simp, ?_, by simp, ?_, ?_, ?_⟩
    · show (0 : Int) ≤ (sumLen (buildDict tb) : Int)
      omega
    · show (0 : Int) ≤ (sumLen (buildDict cb) : Int)
      omega
    · intro _
      show (0 : Int) < (sumLen (buildDict tb) : Int)
      rw [hsum_t]
      norm_num [NUM_QUESTIONS_PER_CATEGORY]
    · intro hx
      simp at hx
  constructor
  · rw [hq0]
  · intro ops q1 hrun
    have hI1 : QInv q1 := runQuizOps_QInv ops q0 q1 hI0 hrun
    constructor
    · intro hfull
      cases hcur : q1.current with
      | clinical => rfl
      | theoretical =>
        have := hI1.2.2.2.2.2.2.1 hcur
        omega
    · intro hcur ops2 q2 hrun2
      exact runQuizOps_stays_clinical ops2 q1 q2 hcur hrun2

/-- A minimal valid quiz configuration: one 100-question subject per category. -/
def q2ex : Quiz :=
  ⟨⟨"Temel", ⟨[("T", Subject.new "T" 100)], 0⟩⟩,
   ⟨"Klinik", ⟨[("C", Subject.new "C" 100)], 0⟩⟩, ActiveCat.theoretical⟩

theorem active_category_forward_only_witness :
    q2ex.current = ActiveCat.theoretical ∧
    (q2ex.theoretical.view.index_to_update = (q2ex.theoretical.view.total_length : Int) →
      q2ex.current = ActiveCat.clinical) := by
  have t := active_category_forward_only [Subject.new "T" 100] [Subject.new "C" 100]
    q2ex (by decide)
  exact ⟨t.1, (t.2 [] q2ex (by rw [runQuizOps])).1⟩

/-- C1: on the default-configured quiz, a run of update calls within the
200-call budget succeeds, returns true exactly on the call that fills the
clinical view's final slot (call 200, after which the clinical cursor equals
the clinical length), returns false on every other call — in particular, call
100, which fills the theoretical view, returns false and only switches the
active category to clinical without touching the clinical category — and any
longer run raises. -/
theorem quiz_update_completion_signal :
    ∀ (q0 : Quiz), defaultQuiz = .ok q0 → ∀ (as : List Answer),
      (as.length ≤ 200 →
        ∃ res q1, runUpdates q0 as = .ok (res, q1) ∧
          (∀ n b, res.get? n = some b → (b = true ↔ n = 199)) ∧
          (as.length = 200 → q1.current = ActiveCat.clinical ∧
            q1.clinical.view.index_to_update = (q1.clinical.view.total_length : Int)) ∧
          (100 ≤ as.length →
            ∃ res1 q100, runUpdates q0 (as.take 100) = .ok (res1, q100) ∧
              res1.get? 99 = some false ∧
              q100.current = ActiveCat.clinical ∧ q100.clinical = q0.clinical)) ∧
      (200 < as.length → ∃ e, runUpdates q0 as = .error e) := by
  intro q0 h as
  have hq0 : q0 = dq := by
    rw [defaultQuiz_eq] at h
    exact (Except.ok.inj h).symm
  subst hq0
  constructor
  · intro hlen
    obtain ⟨res, q1, hrun, hP, hres⟩ := runUpdates_PQ as 0 dq PQ_zero (by omega)
    rw [Nat.zero_add] at hP
    refine ⟨res, q1, hrun, ?_, ?_, ?_⟩
    · intro n b hnb
      rw [hres, List.get?_eq_getElem?, List.getElem?_map] at hnb
      by_cases hn : n < as.length
      · rw [List.getElem?_range hn] at hnb
        simp only [Option.map_some'] at hnb
        rw [← Option.some.inj hnb]
        simp only [decide_eq_true_eq]
        omega
      · rw [List.getElem?_eq_none (by simpa using hn)] at hnb
        simp at hnb
    · intro h200
      rw [h200] at hP
      obtain ⟨hcur, htcur, hccur, _⟩ := hP.2.2.2.2.2.1 (by omega)
      refine ⟨hcur, ?_⟩
      rw [hccur, hP.2.2.2.1]
      norm_num
    · intro h100
      obtain ⟨res1, q100, hrun1, hP1, hres1⟩ :=
        runUpdates_PQ (as.take 100) 0 dq PQ_zero (by rw [List.length_take]; omega)
      have htk : (as.take 100).length = 100 := by rw [List.length_take]; omega
      rw [htk] at hP1 hres1
      rw [Nat.zero_add] at hP1
      refine ⟨res1, q100, hrun1, ?_, ?_, ?_⟩
      · rw [hres1, List.get?_eq_getElem?, List.getElem?_map,
          List.getElem?_range (by omega : (99 : Nat) < 100)]
        rfl
      · exact (hP1.2.2.2.2.2.1 (by omega)).1
      · exact hP1.2.2.2.2.2.2 (by omega)
  · intro hlen
    exact runUpdates_err as 0 dq PQ_zero (by omega)

theorem quiz_update_completion_signal_witness :
    ∃ res q1, runUpdates dq (List.replicate 200 Answer.CORRECT) = .ok (res, q1) ∧
      (∀ n b, res.get? n = some b → (b = true ↔ n = 199)) ∧
      ((List.replicate 200 Answer.CORRECT).length = 200 →
        q1.current = ActiveCat.clinical ∧
        q1.clinical.view.index_to_update = (q1.clinical.view.total_length : Int)) ∧
      (100 ≤ (List.replicate 200 Answer.CORRECT).length →
        ∃ res1 q100,
          runUpdates dq ((List.replicate 200 Answer.CORRECT).take 100)
            = .ok (res1, q100) ∧
          res1.get? 99 = some false ∧
          q100.current = ActiveCat.clinical ∧ q100.clinical = dq.clinical) :=
  (quiz_update_completion_signal dq (by decide)
    (List.replicate 200 Answer.CORRECT)).1 (by decide)
